import Mathlib

/-!
Verification development for `behavenet/analyses/ssm_harness.py`.

The Python module is shallowly embedded: pure numeric data is modelled over
`ℚ` (the claims under scrutiny are exact-arithmetic facts that hold at real
precision), numpy arrays are nested lists, the pickle filesystem and the
object heap touched by `sample_arhmm` are explicit state values, and the
global numpy random stream is an explicit state threaded through the calls.
External library calls (scipy, sklearn, ssm) are modelled by their documented
contracts; each such modelling point is flagged in the corresponding doc
comment.
-/

set_option synthInstance.maxSize 1000
set_option maxRecDepth 100000

namespace SSMHarness

/-!
Section 1: the disk-backed result cache, `cached` (ssm_harness.py lines 45-62).
-/

/-- File names and paths are modelled as lists of characters. -/
abbrev Path := List Char

/-- The four-character extension `".pkl"` appended by the `cached` decorator. -/
def pklExt : Path := ['.', 'p', 'k', 'l']

/-- Model of `os.path.join(a, b)` for POSIX paths, as called at line 48 of
`ssm_harness.py`: an absolute second component discards the first; otherwise
the two components are joined, inserting `'/'` unless the first component is
empty or already ends with `'/'`. -/
def osPathJoin (a b : Path) : Path :=
  if b.head? = some '/' then b
  else if a = [] then b
  else if a.getLast? = some '/' then a ++ b
  else a ++ '/' :: b

/-- The results-file path computed by the wrapper at lines 48-50: join the
output directory and the results name, then append `".pkl"` unless the joined
path already ends with it. -/
def resultsFile (output_dir results_name : Path) : Path :=
  let f := osPathJoin output_dir results_name
  if pklExt <:+ f then f else f ++ pklExt

/-- State visible to one cached call: the pickle files on disk (a map from
path to stored value) and how many times the wrapped function body has run. -/
structure CacheState (α : Type) where
  fs : Path → Option α
  execCount : Nat

/-- The wrapper built by `cached` (`func_wrapper`, lines 47-60): if the results
file exists on disk it is unpickled and returned; otherwise the wrapped
function runs once and its result is pickled to that file.  A side-effect-free
wrapped body is a pure `func : Unit → α`; `execCount` counts its runs. -/
def func_wrapper (output_dir results_name : Path) (func : Unit → α)
    (s : CacheState α) : α × CacheState α :=
  let f := resultsFile output_dir results_name
  match s.fs f with
  | some results => (results, s)
  | none =>
      let results := func ()
      (results, ⟨fun p => if p = f then some results else s.fs p, s.execCount + 1⟩)

/-!
Section 2: state relabeling inside `fit_model` (ssm_harness.py lines 110-114).
The decoded training paths `train_states` are produced by the external `ssm`
model's `most_likely_states` and enter the model as data; the lines under
verification are the pure numpy expressions computing the usage counts and
the relabeling permutation.
-/

/-- Model of `np.bincount(xs, minlength=m)` on nonnegative integers: entry `k`
counts the occurrences of `k`; the length is `minlength` for an empty input
and `max minlength (max xs + 1)` otherwise. -/
def bincount (minlength : Nat) (xs : List Nat) : List Nat :=
  let n := match xs with
    | [] => minlength
    | _ => max minlength (xs.foldl max 0 + 1)
  (List.range n).map fun k => xs.count k

/-- Model of `np.argsort(vals)`: the indices `0, ..., len-1` reordered so that
the corresponding values are ascending.  numpy's default kind is an introsort
that runs a stable insertion sort below its 16-element threshold; the
comparator here resolves ties by original index, which coincides with numpy's
behavior below that threshold.  The sortedness property proved for C2 does
not depend on how ties are resolved. -/
def argsort (vals : List ℤ) : List Nat :=
  (List.range vals.length).mergeSort fun i j =>
    decide (vals.getD i 0 < vals.getD j 0 ∨ (vals.getD i 0 = vals.getD j 0 ∧ i ≤ j))

/-- Line 112: total occupancy of each discrete state over the decoded training
paths, `np.bincount(np.concatenate(train_states), minlength=K)`. -/
def state_usage (K : Nat) (train_states : List (List Nat)) : List Nat :=
  bincount K train_states.flatten

/-- Line 113: the permutation `np.argsort(-usage)` handed to `model.permute`;
after relabeling, new state `s` is old state number `(relabel_perm K ts).getD s 0`. -/
def relabel_perm (K : Nat) (train_states : List (List Nat)) : List Nat :=
  argsort ((state_usage K train_states).map fun (u : ℕ) => -(u : ℤ))

/-!
Section 3: `sample_arhmm` (ssm_harness.py lines 125-142).  The ssm model
object is mutable state, so the embedding gives it an explicit heap slot;
`copy.deepcopy` allocates a fresh slot.  The numpy global random stream is an
explicit state value threaded through every sampling call (`npr.seed` at line
39 initializes it from a seed).
-/

/-- Parameter vectors of ssm model objects live on a heap, indexed by
position. -/
abbrev ModelHeap := List (List ℚ)

/-- The external `ssm` sampler `arhmm.sample(T=T, input=input, with_noise=b)`,
as a function of the receiver's parameter vector, the horizon `T`, the input
sequence, the noise flag and the numpy random state.  It returns the discrete
state path, the continuous trajectory, the receiver's parameters after the
call (a method call may in principle mutate its receiver, which is exactly
what the deep copy in `sample_arhmm` guards against) and the advanced random
state. -/
def SampleFn : Type :=
  List ℚ → Nat → List (List ℚ) → Bool → Nat →
    (List Nat × List (List ℚ)) × List ℚ × Nat

/-- ssm's documented contract for `HMM.sample(T, ...)`: the returned discrete
path and continuous trajectory both have length `T`. -/
def SampleLengthContract (sfn : SampleFn) : Prop :=
  ∀ p T input noise rng,
    ((sfn p T input noise rng).1.1.length = T ∧
      (sfn p T input noise rng).1.2.length = T)

/-- The sampling loop of `sample_arhmm` (lines 133-137): `n` iterations, each
calling `sample` on the object in slot `cid` (the deep copy), threading the
heap and the random state, collecting the draws in order. -/
def sample_loop (sfn : SampleFn) (T : Nat) (input : List (List ℚ)) (noise : Bool)
    (cid : Nat) :
    Nat → ModelHeap → Nat → List (List Nat) × List (List (List ℚ)) × ModelHeap × Nat
  | 0, heap, rng => ([], [], heap, rng)
  | n + 1, heap, rng =>
      let res := sfn (heap.getD cid []) T input noise rng
      let rest := sample_loop sfn T input noise cid n (heap.set cid res.2.1) res.2.2
      (res.1.1 :: rest.1, res.1.2 :: rest.2.1, rest.2.2.1, rest.2.2.2)

/-- Shallow embedding of `sample_arhmm` (lines 125-142): deep-copy the model
in slot `origId` into a fresh heap slot, read `T` from the input length, draw
`num_samples` (z, x) pairs in a loop, and return them with the final heap and
random state.  The sample mean and std at lines 139-140 are computed and
discarded by the Python code and do not affect the returned value. -/
def sample_arhmm (sfn : SampleFn) (heap : ModelHeap) (origId : Nat)
    (test_input : List (List ℚ)) (num_samples : Nat) (with_noise : Bool)
    (rng : Nat) : (List (List Nat) × List (List (List ℚ))) × ModelHeap × Nat :=
  let cid := heap.length
  let heap1 := heap ++ [heap.getD origId []]
  let T := test_input.length
  let res := sample_loop sfn T test_input with_noise cid num_samples heap1 rng
  ((res.1, res.2.1), res.2.2.1, res.2.2.2)

/-- `npr.seed(s)` (line 39): seeding determines the numpy global random state
as a function of the seed alone. -/
def npr_seed (s : Nat) : Nat := s

/-- A concrete sampler obeying `SampleLengthContract`, used to instantiate the
contract-carrying theorems on closed inputs. -/
def constSampleFn : SampleFn := fun p T _input _noise rng =>
  ((List.replicate T 0, List.replicate T p), p, rng + 1)

/-!
Section 4: `make_hollywood_movie` (ssm_harness.py lines 250-318), modelled up
to its observable control flow before frame writing.  In source order: the
stack-count assertion `assert N_samples < 10` (line 261); the vmin/vmax
reduction over the real stack (lines 264-266; `np.min`/`np.max` raise
`ValueError` on an empty stack); the titles-length assertion
`assert len(titles) == N_samples + 1` (line 274, only when an explicit titles
list is passed); the figure setup indexing `decoded_image_stacks[0]` (line
276, `IndexError` when there is no stack); then the writer loop grabbing
frames `1, ..., T-1` of the real stack.  Per-stack payloads are abstracted to
an opaque value per frame (`ℚ`); payload-shape errors inside figure setup are
folded into the success case — no payload makes the setup raise an
`AssertionError`, the behavior under verification.  `same_vlim` keeps its
default `True`.  The result is the number of frames grabbed, or the name of
the exception raised before any frame is written. -/
def make_hollywood_movie (real_image_stack : List ℚ)
    (decoded_image_stacks : List (List ℚ)) (titles : Option (List String)) :
    Except String Nat :=
  let N_samples := decoded_image_stacks.length
  if N_samples < 10 then
    if real_image_stack.isEmpty then Except.error "ValueError"
    else
      match titles with
      | none =>
          if decoded_image_stacks.isEmpty then Except.error "IndexError"
          else Except.ok (real_image_stack.length - 1)
      | some ts =>
          if ts.length = N_samples + 1 then
            if decoded_image_stacks.isEmpty then Except.error "IndexError"
            else Except.ok (real_image_stack.length - 1)
          else Except.error "AssertionError"
  else Except.error "AssertionError"

/-!
Section 5: `preprocess_neural_data` (ssm_harness.py lines 66-79).
-/

/-- Reflect-mode boundary indexing used by `scipy.ndimage.gaussian_filter1d`
(default mode "reflect": `d c b a | a b c d | d c b a`), as a total function
on integer positions for a signal of length `n`. -/
def reflectIdx (n : Nat) (i : ℤ) : Nat :=
  let m := (i % (2 * (n : ℤ))).toNat
  if m < n then m else 2 * n - 1 - m

/-- One pass of `gaussian_filter1d(..., axis=1)` over a single trial (a
time × neurons matrix): each neuron's time series is correlated with the
kernel `w` of radius `r`, with reflect boundary handling; the output has the
input's shape.  The Gaussian weights themselves are floating-point numbers
computed inside scipy from `sigma = int(window * fs)`; they are external to
this repository and enter the model as the explicit kernel `w`.  The scipy
weights are nonnegative and the claims proved below hold for every
nonnegative kernel. -/
def smoothTrial (w : List ℚ) (r : Nat) (m : List (List ℚ)) : List (List ℚ) :=
  (List.range m.length).map fun (t : ℕ) =>
    (List.range (m.headD []).length).map fun (j : ℕ) =>
      ((List.range w.length).map fun (k : ℕ) =>
        w.getD k 0 *
          (m.getD (reflectIdx m.length ((t : ℤ) + (k : ℤ) - (r : ℤ))) []).getD j 0).sum

/-- `np.max` over a nonempty list; `np.max` raises on an empty axis and the
`0` default is never reached under the dimension hypotheses in play. -/
def listMax (l : List ℚ) : ℚ :=
  match l with
  | [] => 0
  | x :: xs => xs.foldl max x

/-- Entry `a[i][t][j]` of a trials × time × neurons nested list, default 0. -/
def idx3 (a : List (List (List ℚ))) (i t j : Nat) : ℚ :=
  ((a.getD i []).getD t []).getD j 0

/-- Line 72, `np.max(np.max(rates, axis=0), axis=0)`: the per-neuron peak,
maximised over trials and then over time. -/
def maxRates (ni nt nn : Nat) (rates : List (List (List ℚ))) : List ℚ :=
  (List.range nn).map fun j =>
    listMax ((List.range nt).map fun t =>
      listMax ((List.range ni).map fun i => idx3 rates i t j))

/-- Line 73, `rates / max_rates`: numpy broadcasting divides entry `j` of
every time row by entry `j` of the per-neuron peak vector.  `ℚ` division is
total (`x / 0 = 0`) where numpy produces NaN (`0/0`) or inf (`x/0`) for a
neuron with zero peak; that non-finite outcome is modelled by the
fit-validation failure branch of `preprocess_neural_data`, which rejects any
input with a zero per-neuron peak, so the totalized values never stand in
for the program's NaN/inf. -/
def normalizeRates (nn : Nat) (mr : List ℚ) (rates : List (List (List ℚ))) :
    List (List (List ℚ)) :=
  rates.map fun m => m.map fun row =>
    (List.range nn).map fun j => row.getD j 0 / mr.getD j 0

/-- The per-feature column means computed by `PCA.fit` (sklearn's `mean_`). -/
def colMeans (nn : Nat) (X : List (List ℚ)) : List ℚ :=
  (List.range nn).map fun j =>
    (X.map fun row => row.getD j 0).sum / (X.length : ℚ)

/-- sklearn's documented `PCA.transform`: `(X - mean_) @ components_.T`,
computed row by row. -/
def pcaTransform (mean : List ℚ) (comps : List (List ℚ)) (X : List (List ℚ)) :
    List (List ℚ) :=
  X.map fun row => comps.map fun comp =>
    ((List.range mean.length).map fun j =>
      (row.getD j 0 - mean.getD j 0) * comp.getD j 0).sum

/-- `lowd_neural_data.reshape((n_trials, trial_length, 20))` at line 79: the
rows of the (ni*nt) × 20 transform output, chunked into `ni` trials of `nt`
rows each. -/
def reshapeRows (ni nt : Nat) (rows : List (List ℚ)) : List (List (List ℚ)) :=
  (List.range ni).map fun i => (rows.drop (i * nt)).take nt

/-- Shallow embedding of `preprocess_neural_data` (lines 66-79).
`neural_data` is a trials × time × neurons nested list; `w` and `r` stand for
the scipy Gaussian kernel (see `smoothTrial`); `comps` stands for the
`PCA(20)` component matrix `components_`, produced by an external
floating-point SVD but subject to sklearn's shape contract (20 × n_features);
`fs` is the sampling rate, multiplied into the smoothed counts at line 71.
Modelled library contracts: `PCA.fit` raises `ValueError` unless
`n_components ≤ min(n_samples, n_features)` (the `none` branch here), and
`PCA.transform` computes `(X - mean_) @ components_.T`.  Returns the Python
function's 4-tuple `(normalized_rates, lowd_neural_data, pca, max_rates)`
with the fitted `pca` object represented by its mean and components. -/
def preprocess_neural_data (w : List ℚ) (r : Nat) (comps : List (List ℚ))
    (fs : ℚ) (neural_data : List (List (List ℚ))) :
    Option (List (List (List ℚ)) × List (List (List ℚ)) ×
      (List ℚ × List (List ℚ)) × List ℚ) :=
  let n_trials := neural_data.length
  let trial_length := (neural_data.headD []).length
  let n_neurons := ((neural_data.headD []).headD []).length
  let rates := neural_data.map fun m => (smoothTrial w r m).map (List.map (· * fs))
  let max_rates := maxRates n_trials trial_length n_neurons rates
  let normalized_rates := normalizeRates n_neurons max_rates rates
  let X := normalized_rates.flatten
  if (∀ j < n_neurons, max_rates.getD j 0 ≠ 0) ∧ 20 ≤ min X.length n_neurons then
    let mean := colMeans n_neurons X
    some (normalized_rates,
      reshapeRows n_trials trial_length (pcaTransform mean comps X),
      (mean, comps), max_rates)
  else none

/-- Rectangularity: `a` is a trials × time × neurons nested list of the given
dimensions (what `neural_data.shape` presupposes of a numpy array). -/
abbrev IsRect3 (a : List (List (List ℚ))) (ni nt nn : Nat) : Prop :=
  a.length = ni ∧ ∀ m ∈ a, m.length = nt ∧ ∀ row ∈ m, row.length = nn

/-- A suffix of `x ++ b` no longer than `b` is a suffix of `b`. -/
theorem suffix_of_append_of_length_le {α : Type} {u b : List α} (x : List α)
    (h : u <:+ x ++ b) (hl : u.length ≤ b.length) : u <:+ b := by
  obtain ⟨t, ht⟩ := h
  have hx : x.length ≤ t.length := by
    have hlen := congrArg List.length ht
    simp only [List.length_append] at hlen
    omega
  have h2 : t.take x.length ++ (t.drop x.length ++ u) = x ++ b := by
    rw [← List.append_assoc, List.take_append_drop]
    exact ht
  have h3 := List.append_inj h2 (by simp only [List.length_take]; omega)
  exact ⟨t.drop x.length, h3.2⟩

/-- A suffix of `x ++ c :: b` longer than `b` contains `c`. -/
theorem mem_of_suffix_of_lt {α : Type} {u b : List α} {c : α} (x : List α)
    (h : u <:+ x ++ c :: b) (hl : b.length < u.length) : c ∈ u := by
  obtain ⟨t, ht⟩ := h
  have hx : t.length ≤ x.length := by
    have hlen := congrArg List.length ht
    simp only [List.length_append, List.length_cons] at hlen
    omega
  have h2 : x.take t.length ++ (x.drop t.length ++ c :: b) = t ++ u := by
    rw [← List.append_assoc, List.take_append_drop]
    exact ht.symm
  have h3 := List.append_inj h2 (by simp only [List.length_take]; omega)
  rw [← h3.2]
  exact List.mem_append.mpr (Or.inr (List.mem_cons_self _ _))

/-- `".pkl"` is a suffix of `x ++ '/' :: b` exactly when it is a suffix of
`b`: the extension contains no slash. -/
theorem pkl_suffix_append_slash (x b : Path) :
    pklExt <:+ x ++ '/' :: b ↔ pklExt <:+ b := by
  constructor
  · intro h
    by_cases hl : pklExt.length ≤ b.length
    · refine suffix_of_append_of_length_le (x ++ ['/']) ?_ hl
      simpa using h
    · exfalso
      have hc : '/' ∈ pklExt := mem_of_suffix_of_lt x h (by omega)
      simp [pklExt] at hc
  · intro h
    exact (h.trans (List.suffix_cons '/' b)).trans (List.suffix_append x ('/' :: b))

/-- The joined path ends in `".pkl"` exactly when the results name does. -/
theorem pkl_suffix_join (a b : Path) :
    pklExt <:+ osPathJoin a b ↔ pklExt <:+ b := by
  unfold osPathJoin
  split
  · exact Iff.rfl
  · split
    · exact Iff.rfl
    · split
      · next hlast =>
          obtain ⟨ys, hys⟩ := List.getLast?_eq_some_iff.mp hlast
          subst hys
          rw [List.append_assoc]
          exact pkl_suffix_append_slash ys b
      · exact pkl_suffix_append_slash a b

/-- C1: two calls of a `cached`-decorated side-effect-free function with the
same output_dir/results_name key return identical results, and the wrapped
function body runs at most once across the two calls (the second call is
served from the persisted cache entry). -/
theorem cached_same_key_idempotent (α : Type) (d n : Path) (func : Unit → α)
    (s₀ : CacheState α) :
    (func_wrapper d n func (func_wrapper d n func s₀).2).1
        = (func_wrapper d n func s₀).1 ∧
    (func_wrapper d n func (func_wrapper d n func s₀).2).2.execCount
        ≤ s₀.execCount + 1 := by
  unfold func_wrapper
  cases h : s₀.fs (resultsFile d n) with
  | some r => simp [h]
  | none => simp [h]

/-- C10: the wrapper appends `".pkl"` exactly when the results name does not
already end in `".pkl"`; in particular, for every output directory, the keys
`"x"` and `"x.pkl"` resolve to the same results file and a cached call with
either key behaves identically. -/
theorem cached_pkl_key_equiv (α : Type) (d n : Path) (func : Unit → α)
    (s : CacheState α) :
    (resultsFile d n = osPathJoin d n ++ pklExt ↔ ¬ pklExt <:+ n) ∧
    (resultsFile d n = osPathJoin d n ↔ pklExt <:+ n) ∧
    resultsFile d ['x'] = resultsFile d ['x', '.', 'p', 'k', 'l'] ∧
    func_wrapper d ['x'] func s = func_wrapper d ['x', '.', 'p', 'k', 'l'] func s := by
  have hxp : osPathJoin d ['x'] ++ pklExt = osPathJoin d ['x', '.', 'p', 'k', 'l'] := by
    unfold osPathJoin
    split
    · simp_all
    · split
      · rfl
      · split
        · rw [List.append_assoc]; rfl
        · rw [List.append_assoc]; rfl
  have hkey : resultsFile d ['x'] = resultsFile d ['x', '.', 'p', 'k', 'l'] := by
    unfold resultsFile
    rw [if_neg, if_pos]
    · exact hxp
    · exact (pkl_suffix_join d _).mpr (by decide)
    · intro hcon
      exact absurd ((pkl_suffix_join d _).mp hcon) (by decide)
  refine ⟨?_, ?_, hkey, ?_⟩
  · unfold resultsFile
    by_cases h : pklExt <:+ osPathJoin d n
    · rw [if_pos h]
      constructor
      · intro heq
        exfalso
        have := congrArg List.length heq
        simp [pklExt] at this
      · intro hn
        exact absurd ((pkl_suffix_join d n).mp h) hn
    · rw [if_neg h]
      simp only [true_iff, iff_true]
      exact fun hn => h ((pkl_suffix_join d n).mpr hn)
  · unfold resultsFile
    by_cases h : pklExt <:+ osPathJoin d n
    · rw [if_pos h]
      simp only [true_iff]
      exact (pkl_suffix_join d n).mp h
    · rw [if_neg h]
      constructor
      · intro heq
        exfalso
        have := congrArg List.length heq
        simp [pklExt] at this
      · intro hn
        exact absurd ((pkl_suffix_join d n).mpr hn) h
  · unfold func_wrapper
    rw [hkey]

/-- Mapping integer negation over a `ℕ` list commutes with `getD` at default
`0`, since the defaults agree. -/
theorem getD_map_neg (usage : List ℕ) (k : Nat) :
    (usage.map fun (u : ℕ) => -(u : ℤ)).getD k 0 = -((usage.getD k 0 : ℕ) : ℤ) := by
  rw [List.getD_eq_getElem?_getD, List.getD_eq_getElem?_getD, List.getElem?_map]
  cases usage[k]? <;> simp

/-- C2: after `fit_model` relabels states with `np.argsort(-usage)`, the
per-state occupancy counts read off in the new state order form a
non-increasing sequence. -/
theorem relabel_usage_sorted (K : Nat) (train_states : List (List Nat)) :
    (((relabel_perm K train_states).map
        fun s => (state_usage K train_states).getD s 0).Pairwise (· ≥ ·)) := by
  unfold relabel_perm argsort
  rw [List.pairwise_map]
  refine List.Pairwise.imp ?_ (List.sorted_mergeSort ?_ ?_ (List.range _))
  · intro i j hij
    have h2 := of_decide_eq_true hij
    rw [getD_map_neg, getD_map_neg] at h2
    have h4 : ((state_usage K train_states).getD j 0 : ℤ)
        ≤ ((state_usage K train_states).getD i 0 : ℤ) := by omega
    exact_mod_cast h4
  · intro a b c hab hbc
    simp only [decide_eq_true_eq] at hab hbc ⊢
    omega
  · intro a b
    simp only [Bool.or_eq_true, decide_eq_true_eq]
    omega

/-- Each draw of `sample_loop` obeys the per-draw length contract, and the
loop produces exactly `n` of them, in order. -/
theorem sample_loop_lengths (sfn : SampleFn) (T : Nat) (input : List (List ℚ))
    (noise : Bool) (cid : Nat) (hc : SampleLengthContract sfn) :
    ∀ (n : Nat) (heap : ModelHeap) (rng : Nat),
      (sample_loop sfn T input noise cid n heap rng).1.length = n ∧
      (sample_loop sfn T input noise cid n heap rng).2.1.length = n ∧
      (∀ z ∈ (sample_loop sfn T input noise cid n heap rng).1, z.length = T) ∧
      (∀ x ∈ (sample_loop sfn T input noise cid n heap rng).2.1, x.length = T) := by
  intro n
  induction n with
  | zero => intro heap rng; simp [sample_loop]
  | succ m ih =>
      intro heap rng
      have hres := hc (heap.getD cid []) T input noise rng
      obtain ⟨ih1, ih2, ih3, ih4⟩ := ih
        (heap.set cid (sfn (heap.getD cid []) T input noise rng).2.1)
        (sfn (heap.getD cid []) T input noise rng).2.2
      refine ⟨?_, ?_, ?_, ?_⟩ <;>
        simp only [sample_loop, List.length_cons, List.mem_cons]
      · rw [ih1]
      · rw [ih2]
      · rintro z (rfl | hz)
        · exact hres.1
        · exact ih3 z hz
      · rintro x (rfl | hx)
        · exact hres.2
        · exact ih4 x hx

/-- Any entry read off a list with `getD` at an index below the length is a
member of the list. -/
theorem getD_mem_of_lt {α : Type} (l : List α) (i : Nat) (d : α)
    (h : i < l.length) : l.getD i d ∈ l := by
  rw [List.getD_eq_getElem?_getD, List.getElem?_eq_getElem h]
  exact List.getElem_mem h

/-- C6: for a model obeying ssm's sampling contract, `sample_arhmm` returns
two lists of length `N` whose `i`-th elements are a discrete-state path of
length `T` and a continuous trajectory of length `T`, where `T` is the input
length, for every `i < N`. -/
theorem sample_arhmm_lengths (sfn : SampleFn) (heap : ModelHeap) (origId : Nat)
    (input : List (List ℚ)) (N : Nat) (noise : Bool) (rng : Nat)
    (hc : SampleLengthContract sfn) :
    (sample_arhmm sfn heap origId input N noise rng).1.1.length = N ∧
    (sample_arhmm sfn heap origId input N noise rng).1.2.length = N ∧
    ∀ i < N,
      ((sample_arhmm sfn heap origId input N noise rng).1.1.getD i []).length
          = input.length ∧
      ((sample_arhmm sfn heap origId input N noise rng).1.2.getD i []).length
          = input.length := by
  obtain ⟨h1, h2, h3, h4⟩ := sample_loop_lengths sfn input.length input noise
    heap.length hc N (heap ++ [heap.getD origId []]) rng
  refine ⟨h1, h2, fun i hi => ⟨?_, ?_⟩⟩
  · exact h3 _ (getD_mem_of_lt _ i [] (by rw [h1]; exact hi))
  · exact h4 _ (getD_mem_of_lt _ i [] (by rw [h2]; exact hi))

/-- Witness for C6 at a concrete model, heap, input and sample count. -/
theorem sample_arhmm_lengths_witness :
    (sample_arhmm constSampleFn [[1]] 0 [[2], [3]] 2 true 0).1.1.length = 2 :=
  (sample_arhmm_lengths constSampleFn [[1]] 0 [[2], [3]] 2 true 0
    (fun p T input noise rng => by simp [constSampleFn])).1

/-- The sampling loop writes only to the copy's slot `cid`: every other heap
slot is unchanged. -/
theorem sample_loop_frame (sfn : SampleFn) (T : Nat) (input : List (List ℚ))
    (noise : Bool) (cid : Nat) :
    ∀ (n : Nat) (heap : ModelHeap) (rng : Nat) (j : Nat), j ≠ cid →
      (sample_loop sfn T input noise cid n heap rng).2.2.1.getD j []
        = heap.getD j [] := by
  intro n
  induction n with
  | zero => intro heap rng j _; simp [sample_loop]
  | succ m ih =>
      intro heap rng j hj
      simp only [sample_loop]
      rw [ih _ _ j hj]
      rw [List.getD_eq_getElem?_getD, List.getElem?_set_ne (fun h => hj h.symm)]
      exact (List.getD_eq_getElem?_getD heap j []).symm

/-- C7: `sample_arhmm` performs all sampling on a deep copy, so the original
model object's parameters after the call equal its parameters before. -/
theorem sample_arhmm_preserves_model (sfn : SampleFn) (heap : ModelHeap)
    (origId : Nat) (input : List (List ℚ)) (N : Nat) (noise : Bool) (rng : Nat)
    (h : origId < heap.length) :
    (sample_arhmm sfn heap origId input N noise rng).2.1.getD origId []
      = heap.getD origId [] := by
  unfold sample_arhmm
  rw [sample_loop_frame sfn input.length input noise heap.length N _ rng origId
    (Nat.ne_of_lt h)]
  rw [List.getD_eq_getElem?_getD, List.getD_eq_getElem?_getD,
    List.getElem?_append_left h]

/-- Witness for C7 at a concrete model and heap. -/
theorem sample_arhmm_preserves_model_witness :
    (sample_arhmm constSampleFn [[5]] 0 [[1]] 3 false 0).2.1.getD 0 [] = [5] :=
  (sample_arhmm_preserves_model constSampleFn [[5]] 0 [[1]] 3 false 0
    (by decide)).trans rfl

/-- C8: two runs of `sample_arhmm` on the same fitted model and input started
from the same random seed produce identical discrete-state paths and
identical continuous trajectories.  All stochasticity of the embedding enters
through the explicit numpy random state, which `npr.seed` determines from the
seed, so the draws are a function of the seed. -/
theorem sample_arhmm_deterministic (sfn : SampleFn) (heap : ModelHeap)
    (origId : Nat) (input : List (List ℚ)) (N : Nat) (noise : Bool)
    (s₁ s₂ : Nat) (h : s₁ = s₂) :
    (sample_arhmm sfn heap origId input N noise (npr_seed s₁)).1.1
      = (sample_arhmm sfn heap origId input N noise (npr_seed s₂)).1.1 ∧
    (sample_arhmm sfn heap origId input N noise (npr_seed s₁)).1.2
      = (sample_arhmm sfn heap origId input N noise (npr_seed s₂)).1.2 := by
  subst h
  exact ⟨rfl, rfl⟩

/-- Witness for C8 at a concrete model, input and seed. -/
theorem sample_arhmm_deterministic_witness :
    (sample_arhmm constSampleFn [[1]] 0 [[2], [3]] 2 true (npr_seed 0)).1.1
      = (sample_arhmm constSampleFn [[1]] 0 [[2], [3]] 2 true (npr_seed 0)).1.1 :=
  (sample_arhmm_deterministic constSampleFn [[1]] 0 [[2], [3]] 2 true 0 0 rfl).1

/-- Counterexample to C9 as stated: with two decoded stacks (fewer than 10), a
nonempty real stack and an explicit titles list of the wrong length,
`make_hollywood_movie` raises `AssertionError` (from the titles-length
assertion at line 274), so raising an `AssertionError` is not equivalent to
being given 10 or more stacks. -/
theorem movie_assert_counterexample :
    make_hollywood_movie [0] [[0], [0]] (some ["t"]) = Except.error "AssertionError" ∧
    ([[0], [0]] : List (List ℚ)).length < 10 :=
  ⟨rfl, by decide⟩

/-- C9 (amended): `make_hollywood_movie` raises `AssertionError` before any
frame is written exactly when given 10 or more decoded stacks or (reaching
the titles check with a nonempty real stack) an explicit titles list whose
length differs from `N_samples + 1`; in particular with the default
`titles=None`, the assertion fires iff 10 or more stacks are given, and fewer
than 10 stacks pass the stack-count check. -/
theorem movie_assert_iff (real : List ℚ) (dstacks : List (List ℚ))
    (titles : Option (List String)) :
    make_hollywood_movie real dstacks titles = Except.error "AssertionError" ↔
      10 ≤ dstacks.length ∨
        (real ≠ [] ∧ ∃ ts, titles = some ts ∧ ts.length ≠ dstacks.length + 1) := by
  unfold make_hollywood_movie
  by_cases h10 : dstacks.length < 10
  · rw [if_pos h10]
    by_cases hreal : real.isEmpty = true
    · rw [if_pos hreal]
      rw [List.isEmpty_iff] at hreal
      constructor
      · intro hc
        injection hc with h
        exact absurd h (by decide)
      · rintro (hge | ⟨hne, -⟩)
        · omega
        · exact absurd hreal hne
    · rw [if_neg hreal]
      rw [List.isEmpty_iff] at hreal
      cases titles with
      | none =>
          dsimp only
          constructor
          · intro hc
            by_cases hse : dstacks.isEmpty = true
            · rw [if_pos hse] at hc
              injection hc with h
              exact absurd h (by decide)
            · rw [if_neg hse] at hc
              exact Except.noConfusion hc
          · rintro (hge | ⟨-, ts, hts, -⟩)
            · omega
            · cases hts
      | some ts =>
          dsimp only
          by_cases hlen : ts.length = dstacks.length + 1
          · rw [if_pos hlen]
            constructor
            · intro hc
              by_cases hse : dstacks.isEmpty = true
              · rw [if_pos hse] at hc
                injection hc with h
                exact absurd h (by decide)
              · rw [if_neg hse] at hc
                exact Except.noConfusion hc
            · rintro (hge | ⟨-, ts', hts', hne⟩)
              · omega
              · cases hts'
                exact absurd hlen hne
          · rw [if_neg hlen]
            constructor
            · intro _
              exact Or.inr ⟨hreal, ts, rfl, hlen⟩
            · intro _
              rfl
  · rw [if_neg h10]
    constructor
    · intro _
      exact Or.inl (by omega)
    · intro _
      rfl


/-- An entry read with `getD` is either a member of the list or the default. -/
theorem getD_mem_or_eq {α : Type} (l : List α) (n : Nat) (d : α) :
    l.getD n d ∈ l ∨ l.getD n d = d := by
  rw [List.getD_eq_getElem?_getD]
  cases h : l[n]? with
  | none => exact Or.inr rfl
  | some x => exact Or.inl (by simpa using List.getElem?_mem h)

/-- `getD` at default 0 preserves entrywise nonnegativity. -/
theorem getD_nonneg_of_forall {l : List ℚ} (h : ∀ x ∈ l, 0 ≤ x) (n : Nat) :
    0 ≤ l.getD n 0 := by
  rcases getD_mem_or_eq l n 0 with hm | he
  · exact h _ hm
  · rw [he]

/-- A fold of `max` stays below any bound dominating the seed and the list. -/
theorem foldl_max_le {xs : List ℚ} {b c : ℚ} (hb : b ≤ c)
    (h : ∀ x ∈ xs, x ≤ c) : xs.foldl max b ≤ c := by
  induction xs generalizing b with
  | nil => exact hb
  | cons y ys ih =>
      exact ih (max_le hb (h y (List.mem_cons_self y ys)))
        fun x hx => h x (List.mem_cons_of_mem y hx)

/-- The seed bounds a fold of `max` from below. -/
theorem le_foldl_max_init (xs : List ℚ) (b : ℚ) : b ≤ xs.foldl max b := by
  induction xs generalizing b with
  | nil => exact le_refl b
  | cons y ys ih => exact le_trans (le_max_left b y) (ih (max b y))

/-- Every member bounds a fold of `max` from below. -/
theorem le_foldl_max_of_mem {xs : List ℚ} {x : ℚ} (b : ℚ) (h : x ∈ xs) :
    x ≤ xs.foldl max b := by
  induction xs generalizing b with
  | nil => exact absurd h (List.not_mem_nil x)
  | cons y ys ih =>
      rcases List.mem_cons.mp h with rfl | h2
      · exact le_trans (le_max_right b x) (le_foldl_max_init ys (max b x))
      · exact ih (max b y) h2

/-- `listMax` is below any nonnegative bound dominating the list. -/
theorem listMax_le {l : List ℚ} {c : ℚ} (hc : 0 ≤ c) (h : ∀ x ∈ l, x ≤ c) :
    listMax l ≤ c := by
  cases l with
  | nil => exact hc
  | cons x xs =>
      exact foldl_max_le (h x (List.mem_cons_self x xs))
        fun y hy => h y (List.mem_cons_of_mem x hy)

/-- Every member is below `listMax`. -/
theorem le_listMax {l : List ℚ} {x : ℚ} (h : x ∈ l) : x ≤ listMax l := by
  cases l with
  | nil => exact absurd h (List.not_mem_nil x)
  | cons y ys =>
      rcases List.mem_cons.mp h with rfl | h2
      · exact le_foldl_max_init ys x
      · exact le_foldl_max_of_mem y h2

/-- Every entry of a smoothed trial is a nonnegative combination of the trial
entries: nonnegative kernel and data give nonnegative smoothed rates. -/
theorem smoothTrial_entry_nonneg {w : List ℚ} {r : Nat} {m : List (List ℚ)}
    (hw : ∀ x ∈ w, 0 ≤ x) (hm : ∀ row ∈ m, ∀ x ∈ row, 0 ≤ x) :
    ∀ row ∈ smoothTrial w r m, ∀ y ∈ row, 0 ≤ y := by
  intro row hrow y hy
  unfold smoothTrial at hrow
  obtain ⟨t, -, rfl⟩ := List.mem_map.mp hrow
  obtain ⟨j, -, rfl⟩ := List.mem_map.mp hy
  apply List.sum_nonneg
  intro z hz
  obtain ⟨k, -, rfl⟩ := List.mem_map.mp hz
  refine mul_nonneg (getD_nonneg_of_forall hw k) ?_
  rcases getD_mem_or_eq m (reflectIdx m.length ((t : ℤ) + (k : ℤ) - (r : ℤ))) []
    with hmem | he
  · exact getD_nonneg_of_forall (hm _ hmem) j
  · rw [he]
    exact le_refl 0

/-- All entries of the rate array (smoothed counts times `fs`) are
nonnegative for a nonnegative count array, kernel and sampling rate. -/
theorem rates_entries_nonneg (w : List ℚ) (r : Nat) (fs : ℚ)
    {a : List (List (List ℚ))} (hw : ∀ x ∈ w, 0 ≤ x) (hfs : 0 ≤ fs)
    (hdata : ∀ m ∈ a, ∀ row ∈ m, ∀ x ∈ row, 0 ≤ x) :
    ∀ m ∈ a.map fun m => (smoothTrial w r m).map (List.map (· * fs)),
      ∀ row ∈ m, ∀ x ∈ row, 0 ≤ x := by
  intro m hm row hrow x hx
  obtain ⟨m0, hm0, rfl⟩ := List.mem_map.mp hm
  obtain ⟨row0, hrow0, rfl⟩ := List.mem_map.mp hrow
  obtain ⟨y, hy, rfl⟩ := List.mem_map.mp hx
  exact mul_nonneg (smoothTrial_entry_nonneg hw (hdata m0 hm0) row0 hrow0 y hy) hfs

/-- The head read with `headD` of a nonempty list is a member. -/
theorem headD_mem {α : Type} {l : List α} (d : α) (h : l ≠ []) : l.headD d ∈ l := by
  cases l with
  | nil => exact absurd rfl h
  | cons x xs => exact List.mem_cons_self x xs

/-- A flatten of `ni` blocks of `nt` rows each has `ni * nt` rows. -/
theorem flatten_length_const {α : Type} {L : List (List α)} {ni nt : Nat}
    (hlen : L.length = ni) (hall : ∀ m ∈ L, m.length = nt) :
    L.flatten.length = ni * nt := by
  rw [List.length_flatten]
  have hrep : L.map List.length = List.replicate ni nt := by
    rw [List.eq_replicate_iff]
    refine ⟨by rw [List.length_map]; exact hlen, ?_⟩
    intro x hx
    obtain ⟨m, hm, rfl⟩ := List.mem_map.mp hx
    exact hall m hm
  rw [hrep, List.sum_const_nat]

/-- The normalized-rate array has one block per trial and one row per time
step of the original rectangular data. -/
theorem normalizeRates_trial_lengths (w : List ℚ) (r : Nat) (fs : ℚ)
    (nn2 : Nat) (mr : List ℚ) {a : List (List (List ℚ))} {ni nt nn : Nat}
    (hrect : IsRect3 a ni nt nn) :
    (normalizeRates nn2 mr
        (a.map fun m => (smoothTrial w r m).map (List.map (· * fs)))).length = ni ∧
    ∀ m ∈ normalizeRates nn2 mr
        (a.map fun m => (smoothTrial w r m).map (List.map (· * fs))),
      m.length = nt := by
  obtain ⟨hlen, hall⟩ := hrect
  constructor
  · simp [normalizeRates, hlen]
  · intro m hm
    unfold normalizeRates at hm
    obtain ⟨m1, hm1, rfl⟩ := List.mem_map.mp hm
    obtain ⟨m0, hm0, rfl⟩ := List.mem_map.mp hm1
    rw [List.length_map, List.length_map]
    unfold smoothTrial
    rw [List.length_map, List.length_range]
    exact (hall m0 hm0).1

/-- The per-neuron peak vector evaluated at a valid neuron index. -/
theorem maxRates_getD {ni nt nn : Nat} (rates : List (List (List ℚ)))
    {j : Nat} (hj : j < nn) :
    (maxRates ni nt nn rates).getD j 0
      = listMax ((List.range nt).map fun t =>
          listMax ((List.range ni).map fun i => idx3 rates i t j)) := by
  unfold maxRates
  rw [List.getD_eq_getElem?_getD, List.getElem?_map, List.getElem?_range hj]
  rfl

/-- Every entry of the rate array at neuron index `j < nn` is bounded by the
per-neuron peak `maxRates`. -/
theorem entry_le_maxRates {ni nt nn : Nat} {rates : List (List (List ℚ))}
    (hlen : rates.length = ni) (hall : ∀ m ∈ rates, m.length = nt)
    {m : List (List ℚ)} (hm : m ∈ rates) {row : List ℚ} (hrow : row ∈ m)
    {j : Nat} (hj : j < nn) :
    row.getD j 0 ≤ (maxRates ni nt nn rates).getD j 0 := by
  obtain ⟨i, hi, hgi⟩ := List.mem_iff_getElem.mp hm
  obtain ⟨t, ht, hgt⟩ := List.mem_iff_getElem.mp hrow
  have hidx : idx3 rates i t j = row.getD j 0 := by
    unfold idx3
    rw [List.getD_eq_getElem?_getD rates i, List.getElem?_eq_getElem hi]
    rw [Option.getD_some, hgi]
    rw [List.getD_eq_getElem?_getD m t, List.getElem?_eq_getElem ht]
    rw [Option.getD_some, hgt]
  rw [maxRates_getD rates hj, ← hidx]
  have h1 : idx3 rates i t j
      ≤ listMax ((List.range ni).map fun i2 => idx3 rates i2 t j) :=
    le_listMax (List.mem_map.mpr ⟨i, List.mem_range.mpr (by omega), rfl⟩)
  have h2 : listMax ((List.range ni).map fun i2 => idx3 rates i2 t j)
      ≤ listMax ((List.range nt).map fun t2 =>
          listMax ((List.range ni).map fun i2 => idx3 rates i2 t2 j)) :=
    le_listMax (List.mem_map.mpr
      ⟨t, List.mem_range.mpr (by rw [← hall m hm]; exact ht), rfl⟩)
  exact le_trans h1 h2

/-- A row of the normalized-rate array evaluated at a valid neuron index,
bounded by 1 when the peak is positive and dominates the raw entry. -/
theorem normRow_le_one {nn : Nat} {mr row : List ℚ} {j : Nat} (hj : j < nn)
    (hpos : 0 < mr.getD j 0) (hle : row.getD j 0 ≤ mr.getD j 0) :
    ((List.range nn).map fun j2 => row.getD j2 0 / mr.getD j2 0).getD j 0 ≤ 1 := by
  rw [List.getD_eq_getElem?_getD, List.getElem?_map, List.getElem?_range hj]
  show row.getD j 0 / mr.getD j 0 ≤ 1
  rw [div_le_one hpos]
  exact hle


/-- The rate array has one block per trial and one row per time step of the
original rectangular data. -/
theorem rates_lengths (w : List ℚ) (r : Nat) (fs : ℚ)
    {a : List (List (List ℚ))} {ni nt nn : Nat} (hrect : IsRect3 a ni nt nn) :
    (a.map fun m => (smoothTrial w r m).map (List.map (· * fs))).length = ni ∧
    ∀ m ∈ a.map fun m => (smoothTrial w r m).map (List.map (· * fs)),
      m.length = nt := by
  obtain ⟨hlen, hall⟩ := hrect
  refine ⟨by rw [List.length_map]; exact hlen, ?_⟩
  intro m hm
  obtain ⟨m0, hm0, rfl⟩ := List.mem_map.mp hm
  rw [List.length_map]
  unfold smoothTrial
  rw [List.length_map, List.length_range]
  exact (hall m0 hm0).1

/-- The dimensions `neural_data.shape` reads off a nonempty rectangular
array. -/
theorem rect3_dims {a : List (List (List ℚ))} {ni nt nn : Nat}
    (hrect : IsRect3 a ni nt nn) (hni : 0 < ni) (hnt : 0 < nt) :
    a.length = ni ∧ (a.headD []).length = nt ∧
      ((a.headD []).headD []).length = nn := by
  obtain ⟨hlen, hall⟩ := hrect
  have hane : a ≠ [] := by
    intro h
    rw [h] at hlen
    simp at hlen
    omega
  have hh := hall _ (headD_mem [] hane)
  have hane2 : a.headD [] ≠ [] := by
    intro h
    have h2 := hh.1
    rw [h] at h2
    simp at h2
    omega
  exact ⟨hlen, hh.1, hh.2 _ (headD_mem [] hane2)⟩

/-- Inversion of a successful `preprocess_neural_data` run on rectangular
data: the dimensions are positive and large enough for the PCA fit to
validate, and the returned components equal the modelled numpy expressions
at the data dimensions. -/
theorem preprocess_inversion {w : List ℚ} {r : Nat} {comps : List (List ℚ)}
    {fs : ℚ} {a : List (List (List ℚ))} {ni nt nn : Nat}
    {norm lowd : List (List (List ℚ))} {p : List ℚ × List (List ℚ)}
    {mr : List ℚ} (hrect : IsRect3 a ni nt nn)
    (hres : preprocess_neural_data w r comps fs a = some (norm, lowd, p, mr)) :
    0 < ni ∧ 0 < nt ∧ 20 ≤ ni * nt ∧ 20 ≤ nn ∧
    mr = maxRates ni nt nn
      (a.map fun m => (smoothTrial w r m).map (List.map (· * fs))) ∧
    norm = normalizeRates nn mr
      (a.map fun m => (smoothTrial w r m).map (List.map (· * fs))) ∧
    lowd = reshapeRows ni nt
      (pcaTransform (colMeans nn norm.flatten) comps norm.flatten) := by
  simp only [preprocess_neural_data] at hres
  obtain ⟨hL1, hL2⟩ := normalizeRates_trial_lengths w r fs
    (((a.headD []).headD []).length)
    (maxRates a.length (a.headD []).length (((a.headD []).headD []).length)
      (a.map fun m => (smoothTrial w r m).map (List.map (· * fs)))) hrect
  rw [flatten_length_const hL1 hL2] at hres
  split at hres
  case isFalse => simp at hres
  case isTrue hcond =>
    obtain ⟨-, hcond⟩ := hcond
    rw [Nat.le_min] at hcond
    have hni : 0 < ni := by
      rcases Nat.eq_zero_or_pos ni with h | h
      · rw [h, Nat.zero_mul] at hcond
        omega
      · exact h
    have hnt : 0 < nt := by
      rcases Nat.eq_zero_or_pos nt with h | h
      · rw [h, Nat.mul_zero] at hcond
        omega
      · exact h
    obtain ⟨hd1, hd2, hd3⟩ := rect3_dims hrect hni hnt
    rw [hd1, hd2, hd3] at hres
    rw [hd3] at hcond
    simp only [Option.some.injEq, Prod.mk.injEq] at hres
    obtain ⟨h1, h2, -, h4⟩ := hres
    refine ⟨hni, hnt, hcond.1, hcond.2, h4.symm, ?_, ?_⟩
    · rw [← h1, ← h4]
    · rw [← h2, ← h1]

/-- C5: for a nonnegative count array smoothed with a nonnegative kernel and
sampling rate, if each neuron's peak smoothed rate over all trials and time
steps is nonzero, then the normalized rates returned by
`preprocess_neural_data` have, for every neuron, a maximum over all trials
and time steps of at most 1. -/
theorem preprocess_normalized_max_le_one (w : List ℚ) (r : Nat)
    (comps : List (List ℚ)) (fs : ℚ) (a : List (List (List ℚ)))
    (ni nt nn : Nat) (norm lowd : List (List (List ℚ)))
    (p : List ℚ × List (List ℚ)) (mr : List ℚ)
    (hrect : IsRect3 a ni nt nn)
    (hdata : ∀ m ∈ a, ∀ row ∈ m, ∀ x ∈ row, 0 ≤ x)
    (hw : ∀ x ∈ w, 0 ≤ x) (hfs : 0 ≤ fs)
    (hres : preprocess_neural_data w r comps fs a = some (norm, lowd, p, mr))
    (hpeak : ∀ j < nn, mr.getD j 0 ≠ 0) :
    ∀ j < nn, listMax ((List.range nt).map fun t =>
      listMax ((List.range ni).map fun i => idx3 norm i t j)) ≤ 1 := by
  obtain ⟨hni, hnt, -, -, hmr, hnorm, -⟩ := preprocess_inversion hrect hres
  subst hmr
  subst hnorm
  intro j hj
  have hRlen := (rates_lengths w r fs hrect).1
  have hRall := (rates_lengths w r fs hrect).2
  have hRnn := rates_entries_nonneg w r fs hw hfs hdata
  have hm0 : (a.map fun m => (smoothTrial w r m).map (List.map (· * fs))).getD 0 []
      ∈ a.map fun m => (smoothTrial w r m).map (List.map (· * fs)) :=
    getD_mem_of_lt _ 0 [] (by omega)
  have hrow0 : ((a.map fun m => (smoothTrial w r m).map (List.map (· * fs))).getD 0 []).getD 0 []
      ∈ (a.map fun m => (smoothTrial w r m).map (List.map (· * fs))).getD 0 [] :=
    getD_mem_of_lt _ 0 [] (by rw [hRall _ hm0]; exact hnt)
  have hmr0 : 0 ≤ (maxRates ni nt nn
      (a.map fun m => (smoothTrial w r m).map (List.map (· * fs)))).getD j 0 :=
    le_trans (getD_nonneg_of_forall (hRnn _ hm0 _ hrow0) j)
      (entry_le_maxRates hRlen hRall hm0 hrow0 hj)
  have hpos : 0 < (maxRates ni nt nn
      (a.map fun m => (smoothTrial w r m).map (List.map (· * fs)))).getD j 0 :=
    lt_of_le_of_ne hmr0 (Ne.symm (hpeak j hj))
  refine listMax_le (by norm_num) ?_
  intro x hx
  obtain ⟨t, -, rfl⟩ := List.mem_map.mp hx
  refine listMax_le (by norm_num) ?_
  intro y hy
  obtain ⟨i, -, rfl⟩ := List.mem_map.mp hy
  unfold idx3 normalizeRates
  rcases getD_mem_or_eq ((a.map fun m => (smoothTrial w r m).map (List.map (· * fs))).map
      fun m => m.map fun row => (List.range nn).map fun j2 => row.getD j2 0 /
        (maxRates ni nt nn (a.map fun m => (smoothTrial w r m).map (List.map (· * fs)))).getD j2 0)
      i [] with hm | he
  · rcases getD_mem_or_eq (((a.map fun m => (smoothTrial w r m).map (List.map (· * fs))).map
        fun m => m.map fun row => (List.range nn).map fun j2 => row.getD j2 0 /
          (maxRates ni nt nn (a.map fun m => (smoothTrial w r m).map (List.map (· * fs)))).getD j2 0).getD i [])
        t [] with hm2 | he2
    · obtain ⟨m0, hm0b, hFm⟩ := List.mem_map.mp hm
      rw [← hFm] at hm2 ⊢
      obtain ⟨row0, hrow0b, hGr⟩ := List.mem_map.mp hm2
      rw [← hGr]
      exact normRow_le_one hj hpos (entry_le_maxRates hRlen hRall hm0b hrow0b hj)
    · rw [he2]
      simp
  · rw [he]
    simp


unseal Rat.mul Rat.add Rat.inv Rat.sub in
/-- Witness for C5 at a concrete 1 × 20 × 20 array of ones, unit kernel, unit
sampling rate, and zero PCA components.  The rational arithmetic is evaluated
definitionally, which needs the Batteries `Rat` operations unsealed. -/
theorem preprocess_normalized_max_le_one_witness :
    listMax ((List.range 20).map fun t =>
      listMax ((List.range 1).map fun i =>
        idx3 [List.replicate 20 (List.replicate 20 (1 : ℚ))] i t 0)) ≤ 1 :=
  preprocess_normalized_max_le_one [1] 0
    (List.replicate 20 (List.replicate 20 (0 : ℚ))) 1
    [List.replicate 20 (List.replicate 20 (1 : ℚ))] 1 20 20
    [List.replicate 20 (List.replicate 20 (1 : ℚ))]
    [List.replicate 20 (List.replicate 20 (0 : ℚ))]
    (List.replicate 20 (1 : ℚ), List.replicate 20 (List.replicate 20 (0 : ℚ)))
    (List.replicate 20 (1 : ℚ))
    (by decide) (by decide) (by decide) (by norm_num)
    (of_decide_eq_true rfl) (by decide) 0 (by norm_num)

/-- The PCA transform keeps the row count and produces rows as long as the
component list. -/
theorem pcaTransform_lengths (mean : List ℚ) (comps X : List (List ℚ)) :
    (pcaTransform mean comps X).length = X.length ∧
    ∀ row ∈ pcaTransform mean comps X, row.length = comps.length := by
  refine ⟨by unfold pcaTransform; rw [List.length_map], ?_⟩
  intro row hrow
  obtain ⟨r0, -, rfl⟩ := List.mem_map.mp hrow
  simp

/-- `reshape((ni, nt, 20))` of an (ni*nt)-row matrix with constant row
length is rectangular of the corresponding dimensions. -/
theorem reshapeRows_rect {rows : List (List ℚ)} {ni nt c : Nat}
    (hlen : rows.length = ni * nt) (hrow : ∀ row ∈ rows, row.length = c) :
    IsRect3 (reshapeRows ni nt rows) ni nt c := by
  refine ⟨by unfold reshapeRows; rw [List.length_map, List.length_range], ?_⟩
  intro m hm
  unfold reshapeRows at hm
  obtain ⟨i, hi, rfl⟩ := List.mem_map.mp hm
  rw [List.mem_range] at hi
  constructor
  · rw [List.length_take, List.length_drop, hlen]
    have h2 : i * nt + nt ≤ ni * nt := by
      have h1 : (i + 1) * nt ≤ ni * nt :=
        Nat.mul_le_mul (Nat.succ_le_of_lt hi) (Nat.le_refl nt)
      calc i * nt + nt = (i + 1) * nt := by ring
        _ ≤ ni * nt := h1
    exact Nat.min_eq_left (Nat.le_sub_of_add_le (by rw [Nat.add_comm]; exact h2))
  · intro row hrow2
    exact hrow row ((List.drop_subset _ _) ((List.take_subset _ _) hrow2))

unseal Rat.mul Rat.add Rat.inv Rat.sub in
/-- A zero count array has zero per-neuron peaks, so in numpy line 73
produces NaN and the PCA fit's finiteness validation raises `ValueError`:
the model returns `none` on a (1, 20, 20) all-zero input even though both
size conditions hold, matching the program. -/
theorem preprocess_zero_peak_none :
    preprocess_neural_data [1] 0 (List.replicate 20 (List.replicate 20 (0 : ℚ))) 40
      [List.replicate 20 (List.replicate 20 (0 : ℚ))] = none :=
  of_decide_eq_true rfl

unseal Rat.mul Rat.add Rat.inv Rat.sub in
/-- Counterexample to C4 as stated: a (1, 10, 25) count array of ones has
25 ≥ 20 neurons and every per-neuron peak nonzero, yet
`preprocess_neural_data` returns no trajectory array at all — the PCA fit
validation fails because `n_samples = 1 * 10 < 20` (sklearn raises
`ValueError`, modelled by the `none` branch); the rational arithmetic is
evaluated definitionally with the `Rat` operations unsealed. -/
theorem preprocess_shape_counterexample :
    preprocess_neural_data [1] 0 (List.replicate 20 (List.replicate 25 (0 : ℚ))) 40
      [List.replicate 10 (List.replicate 25 (1 : ℚ))] = none ∧ (20 : ℕ) ≤ 25 :=
  ⟨of_decide_eq_true rfl, by decide⟩

/-- C4 (amended): for rectangular (trials × time × neurons) count data with
`neurons ≥ 20`, and additionally `trials * time ≥ 20` and a nonzero peak
smoothed rate for every neuron — so that sklearn's PCA fit validates both
`n_components ≤ min(n_samples, n_features)` and the finiteness of its input
(a zero peak makes line 73 produce NaN, which the fit rejects) — the call
succeeds and the returned low-dimensional trajectory array has shape
(trials, time, 20). -/
theorem preprocess_shape (w : List ℚ) (r : Nat) (comps : List (List ℚ))
    (fs : ℚ) (a : List (List (List ℚ))) (ni nt nn : Nat)
    (hrect : IsRect3 a ni nt nn) (hnn : 20 ≤ nn) (hsz : 20 ≤ ni * nt)
    (hcomps : comps.length = 20)
    (hpeak : ∀ j < nn, (maxRates ni nt nn
      (a.map fun m => (smoothTrial w r m).map (List.map (· * fs)))).getD j 0 ≠ 0) :
    ∃ norm lowd p mr,
      preprocess_neural_data w r comps fs a = some (norm, lowd, p, mr) ∧
      IsRect3 lowd ni nt 20 := by
  have hni : 0 < ni := by
    rcases Nat.eq_zero_or_pos ni with h | h
    · rw [h, Nat.zero_mul] at hsz
      omega
    · exact h
  have hnt : 0 < nt := by
    rcases Nat.eq_zero_or_pos nt with h | h
    · rw [h, Nat.mul_zero] at hsz
      omega
    · exact h
  obtain ⟨hd1, hd2, hd3⟩ := rect3_dims hrect hni hnt
  obtain ⟨hL1, hL2⟩ := normalizeRates_trial_lengths w r fs
    nn (maxRates ni nt nn
      (a.map fun m => (smoothTrial w r m).map (List.map (· * fs)))) hrect
  simp only [preprocess_neural_data]
  rw [hd1, hd2, hd3]
  rw [flatten_length_const hL1 hL2]
  rw [if_pos (⟨hpeak, by rw [Nat.le_min]; exact ⟨hsz, hnn⟩⟩ :
    (∀ j < nn, (maxRates ni nt nn
      (a.map fun m => (smoothTrial w r m).map (List.map (· * fs)))).getD j 0 ≠ 0) ∧
    20 ≤ min (ni * nt) nn)]
  refine ⟨_, _, _, _, rfl, ?_⟩
  refine reshapeRows_rect ?_ ?_
  · rw [(pcaTransform_lengths _ _ _).1, flatten_length_const hL1 hL2]
  · intro row hrow
    rw [(pcaTransform_lengths _ _ _).2 row hrow, hcomps]

unseal Rat.mul Rat.add Rat.inv Rat.sub in
/-- Witness for C4 (amended) at a concrete 1 × 20 × 20 array of ones, whose
per-neuron peak smoothed rates are all 1 ≠ 0. -/
theorem preprocess_shape_witness :
    ∃ norm lowd p mr,
      preprocess_neural_data [1] 0 (List.replicate 20 (List.replicate 20 (0 : ℚ))) 1
        [List.replicate 20 (List.replicate 20 (1 : ℚ))] = some (norm, lowd, p, mr) ∧
      IsRect3 lowd 1 20 20 :=
  preprocess_shape [1] 0 (List.replicate 20 (List.replicate 20 (0 : ℚ))) 1
    [List.replicate 20 (List.replicate 20 (1 : ℚ))] 1 20 20
    (by decide) (by decide) (by decide) (by decide) (of_decide_eq_true rfl)

end SSMHarness
